import Mathlib

/-!
Verification of `conan-updater-bgfx.py` against its specification.

The script is a linear orchestration over git, curl, PyYAML and regex text
surgery.  We shallowly embed each function the claims mention:

* YAML documents parsed by `yaml.safe_load` become association lists of
  `String × YVal` (Python 3.7+ dicts preserve insertion order, so an ordered
  association list with unique keys is a faithful model of a parsed mapping).
* `{**a, **b}` becomes `dictMerge a b` (later expansion wins on value, key
  position comes from its first occurrence), `data[k] = v` becomes
  `dictInsert`.
* `yaml.safe_dump` is called with its defaults, hence `sort_keys=True`:
  serialization emits mapping keys in sorted order.  `dumpTop` models this to
  the depth the claims inspect (the top-level mapping and each section
  mapping); Python sorts strings by code points, mirrored by `keyLe`.
* Exceptions become `Except` results.
* Text patched by `update_bgfx_conanfile` becomes `List Char` with the two
  regexes of the source modelled as deterministic matchers (both regexes are
  backtracking-free: every starred class is disjoint from the literal that
  follows it, so greedy matching is ordinary maximal munch).  The version
  string interpolated into the entry regex is treated with `.` as the only
  metacharacter, which covers every version the script can produce
  (`get_genie_version` only returns strings made of digits and dots).
-/

namespace BgfxUpdater

/-- A YAML value as produced by `yaml.safe_load`: a scalar string or a
mapping, the latter kept in document order. -/
inductive YVal where
  | str : String → YVal
  | map : List (String × YVal) → YVal

mutual

/-- Decidable equality of YAML values (written by hand because `deriving`
does not handle the nested inductive). -/
def decEqYVal : (a b : YVal) → Decidable (a = b)
  | YVal.str a, YVal.str b =>
    if h : a = b then Decidable.isTrue (by rw [h]) else Decidable.isFalse (by simp [h])
  | YVal.str _, YVal.map _ => Decidable.isFalse (by simp)
  | YVal.map _, YVal.str _ => Decidable.isFalse (by simp)
  | YVal.map a, YVal.map b =>
    match decEqEntries a b with
    | Decidable.isTrue h => Decidable.isTrue (by rw [h])
    | Decidable.isFalse h => Decidable.isFalse (by simp [h])

/-- Decidable equality of YAML mapping entry lists. -/
def decEqEntries : (a b : List (String × YVal)) → Decidable (a = b)
  | [], [] => Decidable.isTrue rfl
  | [], _ :: _ => Decidable.isFalse (by simp)
  | _ :: _, [] => Decidable.isFalse (by simp)
  | (k1, v1) :: r1, (k2, v2) :: r2 =>
    if hk : k1 = k2 then
      match decEqYVal v1 v2, decEqEntries r1 r2 with
      | Decidable.isTrue hv, Decidable.isTrue hr => Decidable.isTrue (by rw [hk, hv, hr])
      | Decidable.isFalse hv, _ => Decidable.isFalse (by simp [hv])
      | _, Decidable.isFalse hr => Decidable.isFalse (by simp [hr])
    else Decidable.isFalse (by simp [hk])

end

instance : DecidableEq YVal := decEqYVal

/-- Keys of an association list, in order. -/
def dkeys (d : List (String × YVal)) : List String := d.map Prod.fst

/-- Python `dict` lookup: the unique binding of a key (first one if the list
is not dedup'd). -/
def lookupKey (k : String) : List (String × YVal) → Option YVal
  | [] => none
  | (k1, v) :: rest => if k1 = k then some v else lookupKey k rest

/-- Python `d[k] = v`: replace the binding in place if the key exists
(a `dict` holds at most one binding per key, so replacing the first
occurrence is the general statement of that), otherwise append the new
binding at the end. -/
def dictInsert : List (String × YVal) → String → YVal → List (String × YVal)
  | [], k, v => [(k, v)]
  | (k1, w) :: rest, k, v =>
      if k1 = k then (k, v) :: rest else (k1, w) :: dictInsert rest k v

/-- Python `{**a, **b}`: start from `a`, then insert each binding of `b` in
order.  A key of `b` already present keeps the position it has in `a` but
takes the value from `b`. -/
def dictMerge (a b : List (String × YVal)) : List (String × YVal) :=
  b.foldl (fun acc p => dictInsert acc p.1 p.2) a

/-- Python code-point comparison of strings, as used by `sorted` on the keys
of a mapping when PyYAML serializes it with `sort_keys=True`. -/
def charsLe : List Char → List Char → Bool
  | [], _ => true
  | _ :: _, [] => false
  | c :: cs, d :: ds => if c = d then charsLe cs ds else decide (c < d)

/-- Key order used by `yaml.safe_dump`'s key sorting. -/
def keyLe (a b : String) : Bool := charsLe a.data b.data

/-- Sort an association list by key, as `sorted(mapping.items())` does for a
mapping with unique keys. -/
def sortByKey (d : List (String × YVal)) : List (String × YVal) :=
  List.insertionSort (fun p q => keyLe p.1 q.1 = true) d

/-- How `yaml.safe_dump` emits one top-level value: a section mapping has its
keys sorted, a scalar is emitted as is (deeper nesting levels, which no claim
inspects, are kept as parsed). -/
def dumpSectionVal : YVal → YVal
  | YVal.map m => YVal.map (sortByKey m)
  | v => v

/-- The document as `yaml.safe_dump` writes it: keys sorted at the top level
and inside each section mapping. -/
def dumpTop (d : List (String × YVal)) : List (String × YVal) :=
  sortByKey (d.map (fun p => (p.1, dumpSectionVal p.2)))

/-- `update_yaml_list` up to the point where the merged document exists in
memory: read the parsed document, evaluate
`data[list_name] = {**new_data, **data[list_name]}`.  A document without the
section raises `KeyError` (and a scalar section raises `TypeError`) while
evaluating the right-hand side, before the file is opened for writing. -/
def update_yaml_list (doc : List (String × YVal)) (list_name : String)
    (new_data : List (String × YVal)) : Except String (List (String × YVal)) :=
  match lookupKey list_name doc with
  | none => Except.error ("KeyError: " ++ list_name)
  | some (YVal.str _) => Except.error "TypeError: mapping expected"
  | some (YVal.map old) =>
      Except.ok (dictInsert doc list_name (YVal.map (dictMerge new_data old)))

/-- The document the file holds after `update_yaml_list` returns: the merged
document as serialized by `yaml.safe_dump` on success. -/
def update_yaml_list_written (doc : List (String × YVal)) (list_name : String)
    (new_data : List (String × YVal)) : Except String (List (String × YVal)) :=
  (update_yaml_list doc list_name new_data).map dumpTop

/-- The on-disk document across a call of `update_yaml_list`: unchanged when
the merge raises, because `open(file_path, "w")` runs only after the merge
expression has been evaluated. -/
def update_yaml_list_run (doc : List (String × YVal)) (list_name : String)
    (new_data : List (String × YVal)) : List (String × YVal) :=
  match update_yaml_list doc list_name new_data with
  | Except.ok d => dumpTop d
  | Except.error _ => doc

/-! ### Association-list lemmas for the Python dict model -/

theorem lookupKey_eq_none_iff (k : String) (d : List (String × YVal)) :
    lookupKey k d = none ↔ k ∉ dkeys d := by
  induction d with
  | nil => simp [lookupKey, dkeys]
  | cons p rest ih =>
    obtain ⟨k1, v⟩ := p
    by_cases h : k1 = k
    · subst h; simp [lookupKey, dkeys]
    · simp only [lookupKey, if_neg h, dkeys, List.map_cons, List.mem_cons, ih]
      constructor
      · intro hk hor
        rcases hor with hor | hor
        · exact h hor.symm
        · exact hk hor
      · intro hk
        exact fun hm => hk (Or.inr hm)

theorem mem_dkeys_of_lookupKey {k : String} {d : List (String × YVal)} {v : YVal}
    (h : lookupKey k d = some v) : k ∈ dkeys d := by
  by_contra hk
  rw [← lookupKey_eq_none_iff, h] at hk
  exact Option.noConfusion hk

theorem mem_of_lookupKey_eq_some {k : String} {d : List (String × YVal)} {v : YVal}
    (h : lookupKey k d = some v) : (k, v) ∈ d := by
  induction d with
  | nil => exact Option.noConfusion h
  | cons p rest ih =>
    obtain ⟨k1, w⟩ := p
    by_cases hk : k1 = k
    · subst hk
      rw [lookupKey, if_pos rfl] at h
      cases h
      exact List.mem_cons_self _ _
    · rw [lookupKey, if_neg hk] at h
      exact List.mem_cons_of_mem _ (ih h)

theorem nodup_dkeys_tail {p : String × YVal} {rest : List (String × YVal)}
    (hnd : (dkeys (p :: rest)).Nodup) : (dkeys rest).Nodup := by
  simp only [dkeys, List.map_cons, List.nodup_cons] at hnd
  exact hnd.2

theorem head_not_mem_dkeys_tail {k : String} {w : YVal} {rest : List (String × YVal)}
    (hnd : (dkeys ((k, w) :: rest)).Nodup) : k ∉ dkeys rest := by
  simp only [dkeys, List.map_cons, List.nodup_cons] at hnd
  exact hnd.1

theorem lookupKey_eq_some_of_mem {k : String} {d : List (String × YVal)} {v : YVal}
    (hnd : (dkeys d).Nodup) (h : (k, v) ∈ d) : lookupKey k d = some v := by
  induction d with
  | nil => simp at h
  | cons p rest ih =>
    obtain ⟨k1, w⟩ := p
    rcases List.mem_cons.mp h with heq | hmem
    · cases heq
      rw [lookupKey, if_pos rfl]
    · have hk1 : k1 ≠ k := by
        intro hk1
        subst hk1
        exact head_not_mem_dkeys_tail hnd (by simp [dkeys]; exact ⟨v, hmem⟩)
      rw [lookupKey, if_neg hk1]
      exact ih (nodup_dkeys_tail hnd) hmem

theorem lookupKey_eq_of_perm {d1 d2 : List (String × YVal)} (hp : d1.Perm d2)
    (hnd : (dkeys d1).Nodup) (k : String) : lookupKey k d1 = lookupKey k d2 := by
  have hkeys : (dkeys d1).Perm (dkeys d2) := hp.map Prod.fst
  have hnd2 : (dkeys d2).Nodup := hkeys.nodup_iff.mp hnd
  cases hcase : lookupKey k d1 with
  | some v =>
    exact (lookupKey_eq_some_of_mem hnd2 (hp.mem_iff.mp (mem_of_lookupKey_eq_some hcase))).symm
  | none =>
    have hk : k ∉ dkeys d1 := (lookupKey_eq_none_iff k d1).mp hcase
    exact ((lookupKey_eq_none_iff k d2).mpr (fun hmem => hk (hkeys.mem_iff.mpr hmem))).symm

theorem dkeys_dictInsert_of_mem {d : List (String × YVal)} {k : String} (v : YVal)
    (h : k ∈ dkeys d) : dkeys (dictInsert d k v) = dkeys d := by
  induction d with
  | nil => simp [dkeys] at h
  | cons p rest ih =>
    obtain ⟨k1, w⟩ := p
    by_cases hk : k1 = k
    · subst hk; rw [dictInsert, if_pos rfl]; simp [dkeys]
    · have hmem : k ∈ dkeys rest := by
        simp only [dkeys, List.map_cons, List.mem_cons] at h
        rcases h with h | h
        · exact absurd h.symm hk
        · exact h
      rw [dictInsert, if_neg hk]
      simp only [dkeys, List.map_cons]
      rw [show List.map Prod.fst (dictInsert rest k v) = dkeys (dictInsert rest k v) from rfl,
        ih hmem]
      rfl

theorem dkeys_dictInsert_of_not_mem {d : List (String × YVal)} {k : String} (v : YVal)
    (h : k ∉ dkeys d) : dkeys (dictInsert d k v) = dkeys d ++ [k] := by
  induction d with
  | nil => simp [dictInsert, dkeys]
  | cons p rest ih =>
    obtain ⟨k1, w⟩ := p
    have hk : k1 ≠ k := by
      intro hk1; exact h (by simp [dkeys, hk1])
    have hmem : k ∉ dkeys rest := by
      intro hm; exact h (by simp [dkeys]; right; simpa [dkeys] using hm)
    rw [dictInsert, if_neg hk]
    simp only [dkeys, List.map_cons, List.cons_append, List.cons.injEq, true_and]
    rw [show List.map Prod.fst (dictInsert rest k v) = dkeys (dictInsert rest k v) from rfl,
      ih hmem]
    rfl

theorem lookupKey_dictInsert_self (d : List (String × YVal)) (k : String) (v : YVal) :
    lookupKey k (dictInsert d k v) = some v := by
  induction d with
  | nil => rw [dictInsert, lookupKey, if_pos rfl]
  | cons p rest ih =>
    obtain ⟨k1, w⟩ := p
    by_cases hk : k1 = k
    · subst hk; rw [dictInsert, if_pos rfl, lookupKey, if_pos rfl]
    · rw [dictInsert, if_neg hk, lookupKey, if_neg hk]
      exact ih

theorem lookupKey_dictInsert_ne {k1 k : String} (hne : k1 ≠ k)
    (d : List (String × YVal)) (v : YVal) :
    lookupKey k1 (dictInsert d k v) = lookupKey k1 d := by
  induction d with
  | nil => simp [dictInsert, lookupKey, Ne.symm hne]
  | cons p rest ih =>
    obtain ⟨kh, w⟩ := p
    by_cases hk : kh = k
    · subst hk
      simp [dictInsert, lookupKey, Ne.symm hne]
    · by_cases hq : kh = k1
      · subst hq
        simp [dictInsert, lookupKey, hk]
      · simp [dictInsert, lookupKey, hk, hq, ih]

theorem nodup_dkeys_dictInsert {d : List (String × YVal)} (k : String) (v : YVal)
    (hnd : (dkeys d).Nodup) : (dkeys (dictInsert d k v)).Nodup := by
  by_cases h : k ∈ dkeys d
  · rw [dkeys_dictInsert_of_mem v h]; exact hnd
  · rw [dkeys_dictInsert_of_not_mem v h]
    exact List.Nodup.append hnd (List.nodup_singleton k)
      (by intro a ha hb; simp at hb; subst hb; exact h ha)

theorem mem_dkeys_dictInsert {d : List (String × YVal)} {k1 : String} (k : String) (v : YVal)
    (h : k1 ∈ dkeys d) : k1 ∈ dkeys (dictInsert d k v) := by
  by_cases hm : k ∈ dkeys d
  · rw [dkeys_dictInsert_of_mem v hm]; exact h
  · rw [dkeys_dictInsert_of_not_mem v hm]; exact List.mem_append_left _ h

theorem dictMerge_cons (a : List (String × YVal)) (k : String) (v : YVal)
    (b : List (String × YVal)) :
    dictMerge a ((k, v) :: b) = dictMerge (dictInsert a k v) b := rfl

theorem lookupKey_dictMerge_of_none {k : String} {b : List (String × YVal)}
    (h : lookupKey k b = none) (a : List (String × YVal)) :
    lookupKey k (dictMerge a b) = lookupKey k a := by
  induction b generalizing a with
  | nil => rfl
  | cons p rest ih =>
    obtain ⟨k1, w⟩ := p
    have hk1 : k1 ≠ k := by
      intro hk1
      rw [lookupKey, if_pos hk1] at h
      exact Option.noConfusion h
    have hrest : lookupKey k rest = none := by
      rwa [lookupKey, if_neg hk1] at h
    rw [dictMerge_cons, ih hrest, lookupKey_dictInsert_ne (Ne.symm hk1)]

theorem lookupKey_dictMerge_of_some {k : String} {b : List (String × YVal)} {v : YVal}
    (hnb : (dkeys b).Nodup) (h : lookupKey k b = some v) (a : List (String × YVal)) :
    lookupKey k (dictMerge a b) = some v := by
  induction b generalizing a with
  | nil => exact Option.noConfusion h
  | cons p rest ih =>
    obtain ⟨k1, w⟩ := p
    by_cases hk1 : k1 = k
    · subst hk1
      rw [lookupKey, if_pos rfl] at h
      cases h
      have hnotin : lookupKey k1 rest = none := by
        rw [lookupKey_eq_none_iff]
        exact head_not_mem_dkeys_tail hnb
      rw [dictMerge_cons, lookupKey_dictMerge_of_none hnotin, lookupKey_dictInsert_self]
    · rw [lookupKey, if_neg hk1] at h
      rw [dictMerge_cons]
      exact ih (nodup_dkeys_tail hnb) h _

theorem mem_dkeys_dictMerge {k : String} {a : List (String × YVal)}
    (h : k ∈ dkeys a) (b : List (String × YVal)) : k ∈ dkeys (dictMerge a b) := by
  induction b generalizing a with
  | nil => exact h
  | cons p rest ih =>
    obtain ⟨k1, w⟩ := p
    rw [dictMerge_cons]
    exact ih (mem_dkeys_dictInsert k1 w h)

theorem nodup_dkeys_dictMerge {a : List (String × YVal)} (hnd : (dkeys a).Nodup)
    (b : List (String × YVal)) : (dkeys (dictMerge a b)).Nodup := by
  induction b generalizing a with
  | nil => exact hnd
  | cons p rest ih =>
    obtain ⟨k1, w⟩ := p
    rw [dictMerge_cons]
    exact ih (nodup_dkeys_dictInsert k1 w hnd)

theorem sortByKey_perm (d : List (String × YVal)) : (sortByKey d).Perm d :=
  List.perm_insertionSort _ d

theorem lookupKey_sortByKey {d : List (String × YVal)} (hnd : (dkeys d).Nodup)
    (k : String) : lookupKey k (sortByKey d) = lookupKey k d :=
  (lookupKey_eq_of_perm (sortByKey_perm d).symm hnd k).symm

theorem lookupKey_map_val (g : YVal → YVal) (d : List (String × YVal)) (k : String) :
    lookupKey k (d.map (fun p => (p.1, g p.2))) = (lookupKey k d).map g := by
  induction d with
  | nil => rfl
  | cons p rest ih =>
    obtain ⟨k1, v⟩ := p
    by_cases h : k1 = k
    · subst h
      rw [List.map_cons, lookupKey, lookupKey]
      simp only [if_pos rfl]
      rfl
    · rw [List.map_cons, lookupKey, lookupKey]
      simp only [if_neg h]
      exact ih

theorem dkeys_map_val (g : YVal → YVal) (d : List (String × YVal)) :
    dkeys (d.map (fun p => (p.1, g p.2))) = dkeys d := by
  simp [dkeys, List.map_map, Function.comp]

/-! ### Semantic equivalence up to the serializer's key sorting -/

/-- Two top-level values are semantically the same YAML value when they are
equal scalars, or mappings binding every key identically. -/
def yEquivTop : YVal → YVal → Prop
  | YVal.str a, YVal.str b => a = b
  | YVal.map a, YVal.map b => ∀ k1, lookupKey k1 a = lookupKey k1 b
  | _, _ => False

/-- Well-formedness of a parsed section value: a mapping produced by
`yaml.safe_load` has unique keys. -/
def sectWF : YVal → Bool
  | YVal.map m => decide ((dkeys m).Nodup)
  | YVal.str _ => true

theorem yEquivTop_dumpSectionVal (v : YVal) (hv : sectWF v = true) :
    yEquivTop (dumpSectionVal v) v := by
  cases v with
  | str a => exact rfl
  | map m =>
    have hnd : (dkeys m).Nodup := of_decide_eq_true hv
    exact fun k1 => lookupKey_sortByKey hnd k1

/-! ### Claims about the mapping merge (`update_yaml_list`) -/

/-- C1 counterexample: merging the single entry `"1.0" = V2` into a document
whose `versions` section already binds `"1.0"` to `V1` keeps the OLD value:
in `{**new_data, **data[list_name]}` the existing mapping is expanded last,
so its value wins on a key collision.  The section after the merge binds
`"1.0"` to `V1`, not to `V2` as the claim states. -/
theorem c1_overwrite_counterexample :
    update_yaml_list [("versions", YVal.map [("1.0", YVal.str "V1")])] "versions"
        [("1.0", YVal.str "V2")]
      = Except.ok [("versions", YVal.map [("1.0", YVal.str "V1")])]
    ∧ lookupKey "1.0" [("1.0", YVal.str "V1")] ≠ some (YVal.str "V2") :=
  ⟨rfl, by decide⟩

/-- C1 (amended): merging the single new entry `K = V2` into a document whose
named section already maps `K` to `V1` produces a document whose section
contains exactly one entry for `K`, and its value is `V1`: the existing
entry's value takes precedence over the new one (the new entry only
determines the key's position). -/
theorem c1_merge_single_key_amended
    (doc old : List (String × YVal)) (name k : String) (v1 v2 : YVal)
    (hold : lookupKey name doc = some (YVal.map old))
    (hnodup : (dkeys old).Nodup)
    (hv1 : lookupKey k old = some v1) :
    ∃ d2 m, update_yaml_list doc name [(k, v2)] = Except.ok d2
      ∧ lookupKey name d2 = some (YVal.map m)
      ∧ lookupKey k m = some v1
      ∧ (dkeys m).count k = 1 := by
  refine ⟨dictInsert doc name (YVal.map (dictMerge [(k, v2)] old)),
    dictMerge [(k, v2)] old, ?_, ?_, ?_, ?_⟩
  · simp only [update_yaml_list, hold]
  · exact lookupKey_dictInsert_self doc name _
  · exact lookupKey_dictMerge_of_some hnodup hv1 _
  · have hmem : k ∈ dkeys (dictMerge [(k, v2)] old) :=
      mem_dkeys_dictMerge (by simp [dkeys]) old
    have hnd : (dkeys (dictMerge [(k, v2)] old)).Nodup :=
      nodup_dkeys_dictMerge (by simp [dkeys]) old
    exact List.count_eq_one_of_mem hnd hmem

/-- C1 amended claim at a concrete input: a `versions` section mapping
`"1.0"` to `V1` merged with the new entry `"1.0" = V2` yields a section with
exactly one `"1.0"` entry whose value is still `V1`. -/
theorem c1_merge_single_key_amended_witness :
    ∃ d2 m, update_yaml_list [("versions", YVal.map [("1.0", YVal.str "V1")])]
        "versions" [("1.0", YVal.str "V2")] = Except.ok d2
      ∧ lookupKey "versions" d2 = some (YVal.map m)
      ∧ lookupKey "1.0" m = some (YVal.str "V1")
      ∧ (dkeys m).count "1.0" = 1 :=
  c1_merge_single_key_amended [("versions", YVal.map [("1.0", YVal.str "V1")])]
    [("1.0", YVal.str "V1")] "versions" "1.0" (YVal.str "V1") (YVal.str "V2")
    (by decide) (by decide) (by decide)

/-- C2 evidence of the code bug: the in-memory merge does put the new key
`"2"` first, but `yaml.safe_dump` runs with its default `sort_keys=True`, so
the written section lists the keys in sorted order — the pre-existing key
`"1"` comes first and the new key `"2"` last, contradicting the claim (and
the source's own comment `append to the beginning of the list`). -/
theorem c2_dump_sorts_keys_failing_input :
    update_yaml_list_written
        [("versions", YVal.map [("1", YVal.map [("folder", YVal.str "all")])])] "versions"
        [("2", YVal.map [("folder", YVal.str "all")])]
      = Except.ok [("versions", YVal.map
          [("1", YVal.map [("folder", YVal.str "all")]),
           ("2", YVal.map [("folder", YVal.str "all")])])]
    ∧ dkeys [("1", YVal.map [("folder", YVal.str "all")]),
             ("2", YVal.map [("folder", YVal.str "all")])] = ["1", "2"]
    ∧ List.head? ["1", "2"] ≠ some "2" :=
  ⟨rfl, rfl, by decide⟩

/-- C3: merging one new entry `K = V` leaves every other key of the named
section bound as before, leaves every other top-level section bound as
before, and after `yaml.safe_dump` re-serializes the document every other
top-level section is still semantically the same value (the serializer only
reorders mapping keys). -/
theorem c3_merge_frame
    (doc old : List (String × YVal)) (name k : String) (v : YVal)
    (hold : lookupKey name doc = some (YVal.map old))
    (hdoc : (dkeys doc).Nodup)
    (hoo : (dkeys old).Nodup) :
    ∃ d2 m, update_yaml_list doc name [(k, v)] = Except.ok d2
      ∧ lookupKey name d2 = some (YVal.map m)
      ∧ (∀ k1, k1 ≠ k → lookupKey k1 m = lookupKey k1 old)
      ∧ (∀ name1, name1 ≠ name → lookupKey name1 d2 = lookupKey name1 doc)
      ∧ (∀ name1, name1 ≠ name → ∀ w, lookupKey name1 doc = some w →
          sectWF w = true →
          ∃ w2, lookupKey name1 (dumpTop d2) = some w2 ∧ yEquivTop w2 w) := by
  have hmemname : name ∈ dkeys doc := mem_dkeys_of_lookupKey hold
  refine ⟨dictInsert doc name (YVal.map (dictMerge [(k, v)] old)),
    dictMerge [(k, v)] old, ?_, ?_, ?_, ?_, ?_⟩
  · simp only [update_yaml_list, hold]
  · exact lookupKey_dictInsert_self doc name _
  · intro k1 hk1
    have hnone : lookupKey k1 [(k, v)] = none := by
      simp [lookupKey, Ne.symm hk1]
    cases hcase : lookupKey k1 old with
    | some w => exact lookupKey_dictMerge_of_some hoo hcase _
    | none =>
      rw [lookupKey_dictMerge_of_none hcase _]
      exact hnone
  · intro name1 hname1
    exact lookupKey_dictInsert_ne hname1 doc _
  · intro name1 hname1 w hw hwf
    have hd2keys : dkeys (dictInsert doc name (YVal.map (dictMerge [(k, v)] old)))
        = dkeys doc := dkeys_dictInsert_of_mem _ hmemname
    have hmapnd : (dkeys ((dictInsert doc name (YVal.map (dictMerge [(k, v)] old))).map
        (fun p => (p.1, dumpSectionVal p.2)))).Nodup := by
      rw [dkeys_map_val, hd2keys]
      exact hdoc
    refine ⟨dumpSectionVal w, ?_, yEquivTop_dumpSectionVal w hwf⟩
    rw [dumpTop, lookupKey_sortByKey hmapnd, lookupKey_map_val,
      lookupKey_dictInsert_ne hname1 doc _, hw]
    rfl

/-- C3 applied to a concrete document: the untouched key `"1"` of the
`versions` section and the untouched `sources` section survive the merge of
the new entry `"2" = b`, also across re-serialization. -/
theorem c3_merge_frame_witness :
    ∃ d2 m, update_yaml_list
        [("versions", YVal.map [("1", YVal.str "a")]), ("sources", YVal.str "s")]
        "versions" [("2", YVal.str "b")] = Except.ok d2
      ∧ lookupKey "versions" d2 = some (YVal.map m)
      ∧ (∀ k1, k1 ≠ "2" → lookupKey k1 m = lookupKey k1 [("1", YVal.str "a")])
      ∧ (∀ name1, name1 ≠ "versions" → lookupKey name1 d2
          = lookupKey name1
              [("versions", YVal.map [("1", YVal.str "a")]), ("sources", YVal.str "s")])
      ∧ (∀ name1, name1 ≠ "versions" → ∀ w, lookupKey name1
              [("versions", YVal.map [("1", YVal.str "a")]), ("sources", YVal.str "s")]
            = some w → sectWF w = true →
          ∃ w2, lookupKey name1 (dumpTop d2) = some w2 ∧ yEquivTop w2 w) :=
  c3_merge_frame
    [("versions", YVal.map [("1", YVal.str "a")]), ("sources", YVal.str "s")]
    [("1", YVal.str "a")] "versions" "2" (YVal.str "b")
    (by decide) (by decide) (by decide)

/-- C10: when the parsed document has no section named `list_name`, the
right-hand side `{**new_data, **data[list_name]}` raises `KeyError` before
`open(file_path, "w")` ever runs, so `update_yaml_list` reports the error
and the on-disk document is unchanged. -/
theorem c10_missing_section_no_write
    (doc new_data : List (String × YVal)) (list_name : String)
    (h : lookupKey list_name doc = none) :
    update_yaml_list doc list_name new_data = Except.error ("KeyError: " ++ list_name)
    ∧ update_yaml_list_run doc list_name new_data = doc := by
  constructor
  · simp only [update_yaml_list, h]
  · simp only [update_yaml_list_run, update_yaml_list, h]

/-- C10 at a concrete input: asking for a missing `versions` section raises
and leaves the document as it was. -/
theorem c10_missing_section_no_write_witness :
    update_yaml_list [("other", YVal.str "x")] "versions" [("1", YVal.str "a")]
      = Except.error ("KeyError: " ++ "versions")
    ∧ update_yaml_list_run [("other", YVal.str "x")] "versions" [("1", YVal.str "a")]
      = [("other", YVal.str "x")] :=
  c10_missing_section_no_write [("other", YVal.str "x")] [("1", YVal.str "a")]
    "versions" (by decide)

/-! ### `get_genie_version`: scanning the build tool's output -/

/-- The characters of a string literal. -/
def strL (s : String) : List Char := s.data

/-- Python `str.strip()` whitespace at ASCII code points (space, tab,
newline, carriage return, vertical tab, form feed). -/
def isPySpace (c : Char) : Bool :=
  c.toNat = 32 || c.toNat = 9 || c.toNat = 10 || c.toNat = 13 ||
    c.toNat = 11 || c.toNat = 12

/-- Python `str.strip()`. -/
def pyStrip (l : List Char) : List Char :=
  ((l.dropWhile isPySpace).reverse.dropWhile isPySpace).reverse

/-- Python `str.split(sep)` for a one-character separator: splits on every
occurrence and keeps empty pieces, `"".split(sep) == [""]`. -/
def splitOnChar (c : Char) : List Char → List (List Char)
  | [] => [[]]
  | d :: rest =>
    if d = c then [] :: splitOnChar c rest
    else match splitOnChar c rest with
      | [] => [[d]]
      | p :: ps => (d :: p) :: ps

/-- Python `str.isdigit()` restricted to ASCII digits (the characters the
build tool emits). -/
def isDigitCh (c : Char) : Bool := decide (48 ≤ c.toNat) && decide (c.toNat ≤ 57)

/-- The per-line test of `get_genie_version`:
`line.count('.') == 2 and all(part.isdigit() for part in line.split('.'))`
(an empty part fails `isdigit`). -/
def lineMatches (l : List Char) : Bool :=
  (l.count '.' == 2) && (splitOnChar '.' l).all (fun p => !p.isEmpty && p.all isDigitCh)

/-- `get_genie_version` on the captured output: strip it, split into lines,
return the first line passing `lineMatches` (stripped), `none` when the
source raises `Exception("Version format not found in the command output")`. -/
def get_genie_version (out : List Char) : Option (List Char) :=
  ((splitOnChar (Char.ofNat 10) (pyStrip out)).find? lineMatches).map pyStrip

/-- The specification's shape for a version line: the entire line is three
nonempty all-digit groups joined by exactly two dot separators. -/
def digitsNE (p : List Char) : Prop := p ≠ [] ∧ ∀ c ∈ p, isDigitCh c = true

/-- A line of the dotted-triple form the specification describes. -/
def IsTriple (l : List Char) : Prop :=
  ∃ a b c3, l = a ++ '.' :: (b ++ '.' :: c3) ∧ digitsNE a ∧ digitsNE b ∧ digitsNE c3

theorem splitOnChar_ne_nil (c : Char) (l : List Char) : splitOnChar c l ≠ [] := by
  cases l with
  | nil => simp [splitOnChar]
  | cons d rest =>
    by_cases h : d = c
    · simp [splitOnChar, h]
    · simp only [splitOnChar, if_neg h]
      cases splitOnChar c rest <;> simp

theorem splitOnChar_no_sep {c : Char} {l : List Char} (h : ∀ x ∈ l, x ≠ c) :
    splitOnChar c l = [l] := by
  induction l with
  | nil => rfl
  | cons d rest ih =>
    have hd : d ≠ c := h d (List.mem_cons_self _ _)
    have hr : splitOnChar c rest = [rest] :=
      ih (fun x hx => h x (List.mem_cons_of_mem _ hx))
    simp only [splitOnChar, if_neg hd, hr]

theorem splitOnChar_append_sep {c : Char} {a : List Char} (h : ∀ x ∈ a, x ≠ c)
    (rest : List Char) : splitOnChar c (a ++ c :: rest) = a :: splitOnChar c rest := by
  induction a with
  | nil => simp [splitOnChar]
  | cons d a2 ih =>
    have hd : d ≠ c := h d (List.mem_cons_self _ _)
    have hr := ih (fun x hx => h x (List.mem_cons_of_mem _ hx))
    simp only [List.cons_append, splitOnChar, if_neg hd, List.append_eq, hr]

theorem length_splitOnChar (c : Char) (l : List Char) :
    (splitOnChar c l).length = l.count c + 1 := by
  induction l with
  | nil => simp [splitOnChar]
  | cons d rest ih =>
    by_cases h : d = c
    · subst h
      simp [splitOnChar, ih, List.count_cons_self]
    · simp only [splitOnChar, if_neg h]
      cases hsp : splitOnChar c rest with
      | nil => exact absurd hsp (splitOnChar_ne_nil c rest)
      | cons p ps =>
        rw [hsp] at ih
        simp only [List.length_cons] at ih ⊢
        rw [List.count_cons_of_ne (fun hc => h hc.symm), ih]

/-- Rejoin the pieces of a split around the separator. -/
def joinSep (c : Char) : List (List Char) → List Char
  | [] => []
  | a :: rest =>
    match rest with
    | [] => a
    | _ :: _ => a ++ c :: joinSep c rest

theorem joinSep_single (c : Char) (a : List Char) : joinSep c [a] = a := rfl

theorem joinSep_cons2 (c : Char) (a q : List Char) (qs : List (List Char)) :
    joinSep c (a :: q :: qs) = a ++ c :: joinSep c (q :: qs) := rfl

theorem joinSep_splitOnChar (c : Char) (l : List Char) :
    joinSep c (splitOnChar c l) = l := by
  induction l with
  | nil => rfl
  | cons d rest ih =>
    by_cases h : d = c
    · subst h
      have he : splitOnChar d (d :: rest) = [] :: splitOnChar d rest := by
        simp [splitOnChar]
      rw [he]
      cases hsp : splitOnChar d rest with
      | nil => exact absurd hsp (splitOnChar_ne_nil d rest)
      | cons p ps =>
        rw [hsp] at ih
        rw [joinSep_cons2, ih, List.nil_append]
    · simp only [splitOnChar, if_neg h]
      cases hsp : splitOnChar c rest with
      | nil => exact absurd hsp (splitOnChar_ne_nil c rest)
      | cons p ps =>
        rw [hsp] at ih
        cases ps with
        | nil =>
          rw [joinSep_single] at ih
          rw [joinSep_single, ih]
        | cons q qs =>
          rw [joinSep_cons2] at ih
          rw [joinSep_cons2, List.cons_append, ih]

theorem not_sep_mem_splitOnChar {c : Char} {l p1 : List Char}
    (hmem : p1 ∈ splitOnChar c l) : ∀ x ∈ p1, x ≠ c := by
  induction l generalizing p1 with
  | nil =>
    simp only [splitOnChar, List.mem_singleton] at hmem
    subst hmem
    simp
  | cons d rest ih =>
    by_cases h : d = c
    · subst h
      have he : splitOnChar d (d :: rest) = [] :: splitOnChar d rest := by
        simp [splitOnChar]
      rw [he, List.mem_cons] at hmem
      rcases hmem with hmem | hmem
      · subst hmem; simp
      · exact ih hmem
    · simp only [splitOnChar, if_neg h] at hmem
      cases hsp : splitOnChar c rest with
      | nil => exact absurd hsp (splitOnChar_ne_nil c rest)
      | cons p ps =>
        rw [hsp] at hmem
        simp only [List.mem_cons] at hmem
        rcases hmem with hmem | hmem
        · subst hmem
          intro x hx
          rcases List.mem_cons.mp hx with hx | hx
          · subst hx; exact h
          · exact ih (hsp ▸ List.mem_cons_self p ps) x hx
        · exact ih (hsp ▸ List.mem_cons_of_mem p hmem)

theorem ne_dot_of_digit {x : Char} (h : isDigitCh x = true) : x ≠ '.' := by
  intro heq
  subst heq
  exact absurd h (by decide)

theorem lineMatches_iff_isTriple (l : List Char) :
    lineMatches l = true ↔ IsTriple l := by
  constructor
  · intro h
    simp only [lineMatches, Bool.and_eq_true, beq_iff_eq, List.all_eq_true] at h
    obtain ⟨hcount, hall⟩ := h
    have hlen : (splitOnChar '.' l).length = 3 := by
      rw [length_splitOnChar, hcount]
    obtain ⟨a, b, c3, hsp⟩ :
        ∃ a b c3, splitOnChar '.' l = [a, b, c3] := by
      cases hs : splitOnChar '.' l with
      | nil => exact absurd hs (splitOnChar_ne_nil _ l)
      | cons a t1 =>
        cases t1 with
        | nil => rw [hs] at hlen; simp at hlen
        | cons b t2 =>
          cases t2 with
          | nil => rw [hs] at hlen; simp at hlen
          | cons c3 t3 =>
            cases t3 with
            | nil => exact ⟨a, b, c3, rfl⟩
            | cons e t4 => rw [hs] at hlen; simp at hlen
    have hjoin := joinSep_splitOnChar '.' l
    rw [hsp] at hjoin hall
    have hl : l = a ++ '.' :: (b ++ '.' :: c3) := by
      rw [← hjoin]; simp [joinSep]
    have hpart : ∀ p1 ∈ [a, b, c3], p1 ≠ [] ∧ ∀ x ∈ p1, isDigitCh x = true := by
      intro p1 hp1
      have h3 := hall p1 hp1
      refine ⟨?_, h3.2⟩
      intro hnil
      subst hnil
      simp at h3
    exact ⟨a, b, c3, hl,
      hpart a (by simp), hpart b (by simp), hpart c3 (by simp)⟩
  · rintro ⟨a, b, c3, hl, ⟨hane, had⟩, ⟨hbne, hbd⟩, ⟨hcne, hcd⟩⟩
    have hadot : ∀ x ∈ a, x ≠ '.' := fun x hx => ne_dot_of_digit (had x hx)
    have hbdot : ∀ x ∈ b, x ≠ '.' := fun x hx => ne_dot_of_digit (hbd x hx)
    have hcdot : ∀ x ∈ c3, x ≠ '.' := fun x hx => ne_dot_of_digit (hcd x hx)
    have hsp : splitOnChar '.' l = [a, b, c3] := by
      rw [hl, splitOnChar_append_sep hadot, splitOnChar_append_sep hbdot,
        splitOnChar_no_sep hcdot]
    have hcount : l.count '.' = 2 := by
      have := length_splitOnChar '.' l
      rw [hsp] at this
      simp at this
      omega
    simp only [lineMatches, Bool.and_eq_true, beq_iff_eq, List.all_eq_true]
    refine ⟨hcount, ?_⟩
    intro p1 hp1
    rw [hsp] at hp1
    simp only [List.mem_cons, List.not_mem_nil, or_false] at hp1
    have : p1 ≠ [] ∧ ∀ x ∈ p1, isDigitCh x = true := by
      rcases hp1 with rfl | rfl | rfl
      · exact ⟨hane, had⟩
      · exact ⟨hbne, hbd⟩
      · exact ⟨hcne, hcd⟩
    simp only [Bool.and_eq_true, Bool.not_eq_true', List.all_eq_true]
    constructor
    · cases p1 with
      | nil => exact absurd rfl this.1
      | cons y ys => rfl
    · exact this.2

theorem find?_eq_some_split {p : List Char → Bool} {l : List (List Char)}
    {x : List Char} (h : l.find? p = some x) :
    ∃ pre post, l = pre ++ x :: post ∧ p x = true ∧ ∀ y ∈ pre, p y = false := by
  induction l with
  | nil => exact Option.noConfusion h
  | cons a rest ih =>
    by_cases hp : p a = true
    · rw [List.find?_cons_of_pos _ hp] at h
      cases h
      exact ⟨[], rest, rfl, hp, by simp⟩
    · have hp2 : p a = false := by
        cases hval : p a
        · rfl
        · exact absurd hval hp
      rw [List.find?_cons_of_neg _ hp] at h
      obtain ⟨pre, post, hsplit, hx, hpre⟩ := ih h
      refine ⟨a :: pre, post, by rw [hsplit]; rfl, hx, ?_⟩
      intro y hy
      rcases List.mem_cons.mp hy with hy | hy
      · subst hy; exact hp2
      · exact hpre y hy

theorem dropWhile_eq_self_of_forall {p : Char → Bool} {l : List Char}
    (h : ∀ x ∈ l, p x = false) : l.dropWhile p = l := by
  cases l with
  | nil => rfl
  | cons a rest =>
    rw [List.dropWhile_cons, h a (List.mem_cons_self _ _)]
    simp

theorem pyStrip_eq_self {l : List Char} (h : ∀ x ∈ l, isPySpace x = false) :
    pyStrip l = l := by
  unfold pyStrip
  rw [dropWhile_eq_self_of_forall h,
    dropWhile_eq_self_of_forall (fun x hx => h x (List.mem_reverse.mp hx)),
    List.reverse_reverse]

theorem isPySpace_of_digit {x : Char} (h : isDigitCh x = true) :
    isPySpace x = false := by
  simp only [isDigitCh, Bool.and_eq_true, decide_eq_true_eq] at h
  cases hval : isPySpace x
  · rfl
  · exfalso
    simp only [isPySpace, Bool.or_eq_true, decide_eq_true_eq] at hval
    omega

theorem isTriple_no_space {l : List Char} (h : IsTriple l) :
    ∀ x ∈ l, isPySpace x = false := by
  obtain ⟨a, b, c3, hl, ⟨_, had⟩, ⟨_, hbd⟩, ⟨_, hcd⟩⟩ := h
  intro x hx
  rw [hl] at hx
  rcases List.mem_append.mp hx with hx | hx
  · exact isPySpace_of_digit (had x hx)
  · rcases List.mem_cons.mp hx with hx | hx
    · subst hx; decide
    · rcases List.mem_append.mp hx with hx | hx
      · exact isPySpace_of_digit (hbd x hx)
      · rcases List.mem_cons.mp hx with hx | hx
        · subst hx; decide
        · exact isPySpace_of_digit (hcd x hx)

/-- C4: `get_genie_version` succeeds exactly when some line of the stripped
output is a dotted numeric triple (otherwise the source raises), and on
success it returns the first such line itself — every earlier line fails the
pattern, and the returned line needs no trimming because the entire line is
digits and dots.  Lines such as `v1.10.3` or `1.10` never match. -/
theorem c4_genie_version_first_match (out : List Char) :
    ((get_genie_version out).isSome = true ↔
      ∃ l ∈ splitOnChar (Char.ofNat 10) (pyStrip out), IsTriple l)
    ∧ (∀ r, get_genie_version out = some r →
        ∃ pre l post, splitOnChar (Char.ofNat 10) (pyStrip out) = pre ++ l :: post
          ∧ IsTriple l ∧ (∀ p1 ∈ pre, ¬ IsTriple p1) ∧ r = l) := by
  constructor
  · constructor
    · intro hs
      rw [get_genie_version] at hs
      cases hfind : (splitOnChar (Char.ofNat 10) (pyStrip out)).find? lineMatches with
      | none => rw [hfind] at hs; exact absurd hs (by simp)
      | some l =>
        exact ⟨l, List.mem_of_find?_eq_some hfind,
          (lineMatches_iff_isTriple l).mp (List.find?_some hfind)⟩
    · rintro ⟨l, hl, ht⟩
      rw [get_genie_version]
      cases hfind : (splitOnChar (Char.ofNat 10) (pyStrip out)).find? lineMatches with
      | none =>
        rw [List.find?_eq_none] at hfind
        exact absurd ((lineMatches_iff_isTriple l).mpr ht) (hfind l hl)
      | some x => rfl
  · intro r hr
    rw [get_genie_version] at hr
    cases hfind : (splitOnChar (Char.ofNat 10) (pyStrip out)).find? lineMatches with
    | none => rw [hfind] at hr; exact Option.noConfusion hr
    | some l =>
      rw [hfind] at hr
      obtain ⟨pre, post, hsplit, hm, hpre⟩ := find?_eq_some_split hfind
      have ht : IsTriple l := (lineMatches_iff_isTriple l).mp hm
      refine ⟨pre, l, post, hsplit, ht, ?_, ?_⟩
      · intro p1 hp1 hcontra
        have := hpre p1 hp1
        rw [(lineMatches_iff_isTriple p1).mpr hcontra] at this
        exact Bool.noConfusion this
      · have hr2 : pyStrip l = r := Option.some.inj hr
        rw [← hr2, pyStrip_eq_self (isTriple_no_space ht)]

/-- C4 applied to a concrete output: among the lines `v1.10.3`, `1.10`,
`1.10.3`, `9.9.9` the first dotted triple is `1.10.3` and it is returned
verbatim; the two earlier lines do not match. -/
theorem c4_genie_version_first_match_witness :
    ∃ pre l post,
      splitOnChar (Char.ofNat 10) (pyStrip (strL "v1.10.3\n1.10\n1.10.3\n9.9.9"))
        = pre ++ l :: post
      ∧ IsTriple l ∧ (∀ p1 ∈ pre, ¬ IsTriple p1) ∧ strL "1.10.3" = l :=
  (c4_genie_version_first_match (strL "v1.10.3\n1.10\n1.10.3\n9.9.9")).2
    (strL "1.10.3") (by decide)

/-! ### Process invocations: `run_command` and the two unchecked git calls -/

/-- What `subprocess.run` hands back: exit status and captured streams. -/
structure ProcResult where
  returncode : Int
  stdout : String
  stderr : String

/-- Python `str.strip()` on a `String`. -/
def pyStripS (s : String) : String := String.mk (pyStrip s.data)

/-- `run_command`: raise on a nonzero exit status with a message naming the
joined command and the captured stderr, otherwise return stripped stdout. -/
def run_command (command : List String) (result : ProcResult) : Except String String :=
  if result.returncode ≠ 0 then
    Except.error ("Command " ++ String.intercalate " " command
      ++ " failed with error: " ++ result.stderr)
  else Except.ok (pyStripS result.stdout)

/-- `get_commit_timestamp` runs `git log -1 --format=%ct` through
`subprocess.run` directly and never inspects `returncode`: it returns the
stripped stdout unconditionally. -/
def get_commit_timestamp (result : ProcResult) : Except String String :=
  Except.ok (pyStripS result.stdout)

/-- `get_commit_hash_at_timestamp` likewise returns stripped stdout without
checking the exit status. -/
def get_commit_hash_at_timestamp (result : ProcResult) : Except String String :=
  Except.ok (pyStripS result.stdout)

/-- C7 counterexample: a failing `git log -1 --format=%ct` invocation
(nonzero exit status) does not abort the run — `get_commit_timestamp`
returns the captured stdout as an ordinary value and raises nothing. -/
theorem c7_timestamp_ignores_exit_code :
    (1 : Int) ≠ 0
    ∧ get_commit_timestamp ⟨1, "123\n", "fatal: bad revision"⟩ = Except.ok "123"
    ∧ ¬ ∃ e, get_commit_timestamp ⟨1, "123\n", "fatal: bad revision"⟩
        = Except.error e := by
  refine ⟨by decide, rfl, ?_⟩
  rintro ⟨e, he⟩
  exact Except.noConfusion he

/-- C7 (amended): every invocation routed through `run_command` aborts on a
nonzero exit status with an error naming the failed command and its captured
stderr (with no retry); the two direct `subprocess.run` calls in
`get_commit_timestamp` and `get_commit_hash_at_timestamp` are the exception
and ignore the exit status. -/
theorem c7_run_command_amended (command : List String) (result : ProcResult)
    (h : result.returncode ≠ 0) :
    run_command command result
      = Except.error ("Command " ++ String.intercalate " " command
          ++ " failed with error: " ++ result.stderr) := by
  simp only [run_command, if_pos h]

/-- C7 amended claim at a concrete input: a failing `git pull` aborts with
the command and its stderr in the message. -/
theorem c7_run_command_amended_witness :
    run_command ["git", "pull"] ⟨1, "", "fatal: unable to access remote"⟩
      = Except.error ("Command " ++ String.intercalate " " ["git", "pull"]
          ++ " failed with error: " ++ "fatal: unable to access remote") :=
  c7_run_command_amended ["git", "pull"] ⟨1, "", "fatal: unable to access remote"⟩
    (by decide)

/-! ### Companion checkout: the point-in-time join on commit history -/

/-- A commit of a companion repository: hash and commit timestamp. -/
structure Commit where
  hash : String
  time : Nat
deriving DecidableEq

/-- Modelled from the spec: the version-control collaborator contract (§6,
`log` with `--format`/`--before` filters) that `src` only invokes.
`git log -1 --format=%H --before=<ts>` lists commits newest first, keeps
those with commit time at or before the bound (the filter is inclusive) and
`-1` prints the first one. -/
def git_log_before (history : List Commit) (t : Nat) : Option Commit :=
  (history.filter (fun c => c.time ≤ t)).head?

/-- The hash `main` checks the companion repository out to: the hash printed
by `git log -1 --format=%H --before=<bgfx timestamp>` (empty when no commit
qualifies). -/
def companion_checkout_sha (history : List Commit) (bgfx_timestamp : Nat) : String :=
  match git_log_before history bgfx_timestamp with
  | some c => c.hash
  | none => ""

/-- C8: with the companion history listed newest first, the revision
selected for checkout is a commit at or before the primary timestamp `t`
that is most recent among all such commits; in particular a companion commit
at exactly `t` wins over any strictly earlier one. -/
theorem c8_companion_checkout_most_recent
    (history : List Commit) (t : Nat) (c : Commit)
    (hsorted : List.Pairwise (fun a b => b.time ≤ a.time) history)
    (hsel : git_log_before history t = some c) :
    c ∈ history ∧ c.time ≤ t
    ∧ (∀ c2 ∈ history, c2.time ≤ t → c2.time ≤ c.time)
    ∧ ((∃ c2 ∈ history, c2.time = t) → c.time = t)
    ∧ companion_checkout_sha history t = c.hash := by
  have hpairf : (history.filter (fun x => decide (x.time ≤ t))).Pairwise
      (fun a b => b.time ≤ a.time) := hsorted.filter _
  rw [git_log_before] at hsel
  cases hfil : history.filter (fun x => decide (x.time ≤ t)) with
  | nil => rw [hfil] at hsel; exact Option.noConfusion hsel
  | cons a rest =>
    rw [hfil] at hsel
    have hac : a = c := by
      simpa [List.head?] using hsel
    subst hac
    have hmem : a ∈ history ∧ a.time ≤ t := by
      have : a ∈ history.filter (fun x => decide (x.time ≤ t)) := by
        rw [hfil]; exact List.mem_cons_self _ _
      have h2 := List.mem_filter.mp this
      exact ⟨h2.1, of_decide_eq_true h2.2⟩
    have hmax : ∀ c2 ∈ history, c2.time ≤ t → c2.time ≤ a.time := by
      intro c2 hc2 hle
      have : c2 ∈ history.filter (fun x => decide (x.time ≤ t)) :=
        List.mem_filter.mpr ⟨hc2, decide_eq_true hle⟩
      rw [hfil] at this
      rcases List.mem_cons.mp this with heq | hrest
      · subst heq; exact Nat.le_refl _
      · rw [hfil] at hpairf
        exact (List.pairwise_cons.mp hpairf).1 c2 hrest
    refine ⟨hmem.1, hmem.2, hmax, ?_, ?_⟩
    · rintro ⟨c2, hc2, ht2⟩
      exact Nat.le_antisymm hmem.2 (ht2 ▸ hmax c2 hc2 (Nat.le_of_eq ht2))
    · rw [companion_checkout_sha, git_log_before, hfil]
      rfl

/-- C8 at a concrete history: with companion commits at times 100 and 90 and
primary timestamp 100, the commit at exactly 100 is selected (the boundary
is inclusive) and its hash is what gets checked out. -/
theorem c8_companion_checkout_most_recent_witness :
    Commit.mk "h2" 100 ∈ [Commit.mk "h2" 100, Commit.mk "h1" 90]
    ∧ (Commit.mk "h2" 100).time ≤ 100
    ∧ (∀ c2 ∈ [Commit.mk "h2" 100, Commit.mk "h1" 90], c2.time ≤ 100 →
        c2.time ≤ (Commit.mk "h2" 100).time)
    ∧ ((∃ c2 ∈ [Commit.mk "h2" 100, Commit.mk "h1" 90], c2.time = 100) →
        (Commit.mk "h2" 100).time = 100)
    ∧ companion_checkout_sha [Commit.mk "h2" 100, Commit.mk "h1" 90] 100
        = (Commit.mk "h2" 100).hash :=
  c8_companion_checkout_most_recent [Commit.mk "h2" 100, Commit.mk "h1" 90] 100
    (Commit.mk "h2" 100) (by decide) (by decide)

/-! ### `calculate_sha256`: chunked streaming digest -/

/-- The read loop `iter(lambda: f.read(4096), b"")`: successive 4096-byte
blocks of the file until the read comes back empty. -/
def readChunks4096 (l : List Nat) : List (List Nat) :=
  if h : l = [] then [] else l.take 4096 :: readChunks4096 (l.drop 4096)
termination_by l.length
decreasing_by
  simp only [List.length_drop]
  have : 0 < l.length := List.length_pos.mpr h
  omega

/-- `hashlib.sha256().update`: absorbing bytes appends them to the byte
sequence the digest is computed over (the digest itself is an arbitrary
function of the absorbed bytes, passed as a parameter). -/
def hashlib_update (absorbed chunk : List Nat) : List Nat := absorbed ++ chunk

/-- `calculate_sha256`: stream the file in 4096-byte blocks into the hash
object, then ask for the digest of everything absorbed. -/
def calculate_sha256 (digest : List Nat → String) (file : List Nat) : String :=
  digest ((readChunks4096 file).foldl hashlib_update [])

/-- The reference the specification compares against: one digest of the
file's entire byte content. -/
def sha256_single_pass (digest : List Nat → String) (file : List Nat) : String :=
  digest file

theorem foldl_hashlib_update (ls : List (List Nat)) (acc : List Nat) :
    ls.foldl hashlib_update acc = acc ++ ls.flatten := by
  induction ls generalizing acc with
  | nil => simp
  | cons a rest ih =>
    simp only [List.foldl_cons, List.flatten_cons, ih, hashlib_update,
      List.append_assoc]

theorem join_readChunks (l : List Nat) : (readChunks4096 l).flatten = l := by
  rw [readChunks4096]
  by_cases h : l = []
  · simp [h]
  · simp only [dif_neg h, List.flatten_cons]
    rw [join_readChunks (l.drop 4096), List.take_append_drop]
termination_by l.length
decreasing_by
  simp only [List.length_drop]
  have : 0 < l.length := List.length_pos.mpr h
  omega

/-- C9: reading the file in fixed 4096-byte blocks and feeding each block to
the streaming hash absorbs exactly the file's bytes in order, so the chunked
digest equals the single-pass digest of the whole content, whatever digest
function the hash implements. -/
theorem c9_chunked_sha256_refines_single_pass (digest : List Nat → String)
    (file : List Nat) : calculate_sha256 digest file = sha256_single_pass digest file := by
  rw [calculate_sha256, sha256_single_pass, foldl_hashlib_update,
    List.nil_append, join_readChunks]

/-! ### `update_bgfx_conanfile`: regex text surgery on the recipe script

The two regexes of the source are deterministic: in
`def _NAME\(self\):\s*return\s*\x7b` each `\s*` is followed by a
non-whitespace literal, and in `"V":\s*"[^\x22]*"` the starred class
excludes the quote that follows, so greedy matching is plain maximal munch
and `re.search` is "first position whose suffix matches".  The version
interpolated into the entry regex is treated with `.` as its only
metacharacter (`get_genie_version` only ever produces digits and dots). -/

/-- Strip a literal prefix, returning the remainder. -/
def dropPre? : List Char → List Char → Option (List Char)
  | [], s => some s
  | _ :: _, [] => none
  | c :: cs, d :: ds => if c = d then dropPre? cs ds else none

/-- Match `def NAME(self):` + `\s*` + `return` + `\s*` + an opening brace at
the head of `s`, returning the text after the brace. -/
def headerMatch (accessor : List Char) (s : List Char) : Option (List Char) :=
  match dropPre? (strL "def " ++ accessor ++ strL "(self):") s with
  | none => none
  | some r1 =>
    match dropPre? (strL "return") (r1.dropWhile isPySpace) with
    | none => none
    | some r3 =>
      match r3.dropWhile isPySpace with
      | [] => none
      | c :: rest => if c = Char.ofNat 123 then some rest else none

/-- Match the interpolated version at the head of `s`: a literal character
of the version matches itself, a `.` of the version is the regex wildcard
(any character except a newline). -/
def matchVer : List Char → List Char → Option (List Char)
  | [], s => some s
  | _ :: _, [] => none
  | c :: cs, d :: ds =>
      if (c = '.' ∧ d ≠ Char.ofNat 10) ∨ (c ≠ '.' ∧ c = d) then matchVer cs ds
      else none

/-- Match `"V":\s*"[^\x22]*"` (with the closing quote optional when `optQ`,
the `_bimg_version` variant) at the head of `s`. -/
def entryMatch (v : List Char) (optQ : Bool) (s : List Char) : Option (List Char) :=
  match s with
  | [] => none
  | c0 :: r1 =>
    if c0 = '"' then
      match matchVer v r1 with
      | none => none
      | some r2 =>
        match r2 with
        | '"' :: ':' :: r3 =>
          match r3.dropWhile isPySpace with
          | '"' :: r5 =>
            match r5.dropWhile (fun c => c ≠ '"') with
            | '"' :: r7 => some r7
            | r6 => if optQ then some r6 else none
          | _ => none
        | _ => none
    else none

/-- Scan for the first suffix position where the matcher succeeds, returning
that offset and the remainder after the match. -/
def searchRem (m : List Char → Option (List Char)) : List Char → Option (Nat × List Char)
  | [] =>
    (match m [] with
     | some r => some (0, r)
     | none => none)
  | c :: rest =>
    match m (c :: rest) with
    | some r => some (0, r)
    | none =>
      match searchRem m rest with
      | some (i, r) => some (i + 1, r)
      | none => none

/-- Python `pattern.search(s, pos)`: the span `(start, end)` of the first
match beginning at or after `pos`. -/
def searchIdx (m : List Char → Option (List Char)) (s : List Char) (pos : Nat) :
    Option (Nat × Nat) :=
  match searchRem m (s.drop pos) with
  | some (i, r) => some (pos + i, s.length - r.length)
  | none => none

/-- The replacement text `f-string "KEY": "VAL"`. -/
def entryLit (key val : List Char) : List Char :=
  '"' :: key ++ '"' :: ':' :: ' ' :: '"' :: val ++ ['"']

/-- The insertion text: newline, twelve spaces of indentation, the entry and
a trailing comma. -/
def insertText (key val : List Char) : List Char :=
  strL "\n            " ++ entryLit key val ++ strL ","

/-- One accessor block of `update_bgfx_conanfile`: locate the accessor's
opening brace; search the text FROM THAT POINT TO THE END OF THE FILE for an
entry keyed by the version; replace the first match in place, or, when there
is none, insert a fresh entry right after the brace.  A missing accessor
signature leaves the text unchanged. -/
def update_conanfile_region (content accessor key val : List Char) (optQ : Bool) :
    List Char :=
  match searchIdx (headerMatch accessor) content 0 with
  | none => content
  | some (_, hEnd) =>
    match searchIdx (entryMatch key optQ) content hEnd with
    | some (es, ee) => content.take es ++ entryLit key val ++ content.drop ee
    | none => content.take hEnd ++ insertText key val ++ content.drop hEnd

/-- `update_bgfx_conanfile` on the recipe text: patch the `_bx_version`
accessor (strict closing quote), then the `_bimg_version` accessor (optional
closing quote) of the updated text, as the source does in sequence. -/
def update_bgfx_conanfile (content bgfx_version bx_version bimg_version : List Char) :
    List Char :=
  update_conanfile_region
    (update_conanfile_region content (strL "_bx_version") bgfx_version bx_version false)
    (strL "_bimg_version") bgfx_version bimg_version true

/-- Occurrences of a pattern in a text (counted at every start position). -/
def countSub (pat : List Char) : List Char → Nat
  | [] =>
    (match dropPre? pat [] with
     | some _ => 1
     | none => 0)
  | c :: rest =>
    (match dropPre? pat (c :: rest) with
     | some _ => 1
     | none => 0) + countSub pat rest

theorem dropPre_append (pat r : List Char) : dropPre? pat (pat ++ r) = some r := by
  induction pat with
  | nil => rfl
  | cons c cs ih => simp [dropPre?, ih]

theorem countSub_le_append (pat a b : List Char) :
    countSub pat b ≤ countSub pat (a ++ b) := by
  induction a with
  | nil => exact Nat.le_refl _
  | cons c a2 ih =>
    rw [List.cons_append]
    calc countSub pat b ≤ countSub pat (a2 ++ b) := ih
      _ ≤ _ := by
        rw [countSub]
        exact Nat.le_add_left _ _

theorem one_le_countSub_self (pat b : List Char) :
    1 ≤ countSub pat (pat ++ b) := by
  cases h : pat ++ b with
  | nil =>
    have hp : pat = [] := (List.append_eq_nil.mp h).1
    have hb : b = [] := (List.append_eq_nil.mp h).2
    subst hp; subst hb
    exact Nat.le_refl 1
  | cons c rest =>
    rw [countSub]
    have : dropPre? pat (c :: rest) = some b := by rw [← h]; exact dropPre_append pat b
    rw [this]
    exact Nat.le_add_right 1 _

theorem take_drop_decomposition {es ee : Nat} (hle : es ≤ ee) (l : List Char) :
    l = l.take es ++ (l.take ee).drop es ++ l.drop ee := by
  have h1 : l.take ee = (l.take ee).take es ++ (l.take ee).drop es :=
    (List.take_append_drop es (l.take ee)).symm
  have h2 : (l.take ee).take es = l.take es := by
    rw [List.take_take, Nat.min_eq_left hle]
  calc l = l.take ee ++ l.drop ee := (List.take_append_drop ee l).symm
    _ = ((l.take ee).take es ++ (l.take ee).drop es) ++ l.drop ee := by rw [← h1]
    _ = l.take es ++ (l.take ee).drop es ++ l.drop ee := by rw [h2]

/-- C5 counterexample: the entry search of the `_bx_version` block runs from
the accessor's opening brace to the end of the FILE, not to the end of the
accessor.  With an empty `_bx_version` mapping and a later `_bimg_version`
mapping that carries an entry for the key `100`, installing the pair
`(100, 5)` does not insert anything into the empty region: it rewrites the
other accessor's entry instead, so the rest of the file is not byte-identical
and the `_bx_version` region gains no entry at all. -/
theorem c5_insertion_counterexample :
    countSub (strL "\"100\": \"8\"")
      (strL "def _bx_version(self):return\x7b\x7d\ndef _bimg_version(self):return\x7b\"100\": \"8\"\x7d")
      = 1
    ∧ update_conanfile_region
        (strL "def _bx_version(self):return\x7b\x7d\ndef _bimg_version(self):return\x7b\"100\": \"8\"\x7d")
        (strL "_bx_version") (strL "100") (strL "5") false
      = strL "def _bx_version(self):return\x7b\x7d\ndef _bimg_version(self):return\x7b\"100\": \"5\"\x7d"
    ∧ countSub (strL "\"100\": \"8\"")
        (update_conanfile_region
          (strL "def _bx_version(self):return\x7b\x7d\ndef _bimg_version(self):return\x7b\"100\": \"8\"\x7d")
          (strL "_bx_version") (strL "100") (strL "5") false)
      = 0 :=
  ⟨by decide, by decide, by decide⟩

/-- C5 (amended): when the entry pattern for the key has NO match anywhere at
or after the accessor's opening brace (in particular the accessor region has
zero entries and no later region carries the key), the patch inserts exactly
the text `\n            "KEY": "VAL",` immediately after the opening brace
and every other byte of the file is unchanged; the inserted entry occurs in
the result. -/
theorem c5_insertion_amended
    (content accessor key val : List Char) (optQ : Bool) (hs hEnd : Nat)
    (hheader : searchIdx (headerMatch accessor) content 0 = some (hs, hEnd))
    (hnone : searchIdx (entryMatch key optQ) content hEnd = none) :
    update_conanfile_region content accessor key val optQ
      = content.take hEnd ++ insertText key val ++ content.drop hEnd
    ∧ 1 ≤ countSub (insertText key val)
        (update_conanfile_region content accessor key val optQ) := by
  have heq : update_conanfile_region content accessor key val optQ
      = content.take hEnd ++ insertText key val ++ content.drop hEnd := by
    simp only [update_conanfile_region, hheader, hnone]
  refine ⟨heq, ?_⟩
  rw [heq, List.append_assoc]
  calc 1 ≤ countSub (insertText key val) (insertText key val ++ content.drop hEnd) :=
        one_le_countSub_self _ _
    _ ≤ _ := countSub_le_append _ _ _

/-- C5 amended claim at a concrete input: on a file holding one empty
`_bx_version` mapping and nothing else, installing `(1.0.0, 5)` inserts the
one new entry right after the brace and leaves the rest byte-identical. -/
theorem c5_insertion_amended_witness :
    update_conanfile_region (strL "def _bx_version(self):return\x7b\x7d\n")
        (strL "_bx_version") (strL "1.0.0") (strL "5") false
      = (strL "def _bx_version(self):return\x7b\x7d\n").take 29
          ++ insertText (strL "1.0.0") (strL "5")
          ++ (strL "def _bx_version(self):return\x7b\x7d\n").drop 29
    ∧ 1 ≤ countSub (insertText (strL "1.0.0") (strL "5"))
        (update_conanfile_region (strL "def _bx_version(self):return\x7b\x7d\n")
          (strL "_bx_version") (strL "1.0.0") (strL "5") false) :=
  c5_insertion_amended (strL "def _bx_version(self):return\x7b\x7d\n")
    (strL "_bx_version") (strL "1.0.0") (strL "5") false 0 29
    (by decide) (by decide)

/-- C6 counterexample: the interpolated key is not regex-escaped, so each
`.` of the version matches ANY character.  In a region that contains
`"1x0": "a"` before the genuine `"1.0": "Cold"` entry, installing
`(1.0, Cnew)` rewrites the `"1x0"` entry (the first pattern match), leaving
the old `"1.0": "Cold"` untouched — afterwards the file holds TWO entries
keyed `"1.0"`, a duplicate the claim rules out. -/
theorem c6_replacement_counterexample :
    countSub (strL "\"1.0\":")
      (strL "def _bx_version(self):return\x7b\"1x0\": \"a\", \"1.0\": \"Cold\"\x7d")
      = 1
    ∧ update_conanfile_region
        (strL "def _bx_version(self):return\x7b\"1x0\": \"a\", \"1.0\": \"Cold\"\x7d")
        (strL "_bx_version") (strL "1.0") (strL "Cnew") false
      = strL "def _bx_version(self):return\x7b\"1.0\": \"Cnew\", \"1.0\": \"Cold\"\x7d"
    ∧ countSub (strL "\"1.0\":")
        (update_conanfile_region
          (strL "def _bx_version(self):return\x7b\"1x0\": \"a\", \"1.0\": \"Cold\"\x7d")
          (strL "_bx_version") (strL "1.0") (strL "Cnew") false)
      = 2 :=
  ⟨by decide, by decide, by decide⟩

/-- C6 (amended): the patch replaces IN PLACE the first text matching the
entry pattern at or after the accessor's opening brace (searching to the end
of the file, with each `.` of the key a wildcard).  When that first match is
the entry `"KEY": "OLD"`, the result is the same file with exactly that span
replaced by `"KEY": "NEW"` — key and punctuation preserved, every byte
outside the span unchanged; the old entry occurred in the input and the new
entry occurs in the output. -/
theorem c6_replacement_amended
    (content accessor key oldv newv : List Char) (optQ : Bool)
    (hs hEnd es ee : Nat)
    (hheader : searchIdx (headerMatch accessor) content 0 = some (hs, hEnd))
    (hfound : searchIdx (entryMatch key optQ) content hEnd = some (es, ee))
    (hspan : (content.take ee).drop es = entryLit key oldv)
    (hle : es ≤ ee) :
    update_conanfile_region content accessor key newv optQ
      = content.take es ++ entryLit key newv ++ content.drop ee
    ∧ 1 ≤ countSub (entryLit key oldv) content
    ∧ 1 ≤ countSub (entryLit key newv)
        (update_conanfile_region content accessor key newv optQ) := by
  have heq : update_conanfile_region content accessor key newv optQ
      = content.take es ++ entryLit key newv ++ content.drop ee := by
    simp only [update_conanfile_region, hheader, hfound]
  refine ⟨heq, ?_, ?_⟩
  · have hdecomp := take_drop_decomposition hle content
    rw [hspan] at hdecomp
    calc 1 ≤ countSub (entryLit key oldv) (entryLit key oldv ++ content.drop ee) :=
          one_le_countSub_self _ _
      _ ≤ countSub (entryLit key oldv)
            (content.take es ++ (entryLit key oldv ++ content.drop ee)) :=
          countSub_le_append _ _ _
      _ = countSub (entryLit key oldv) content := by
          rw [← List.append_assoc, ← hdecomp]
  · rw [heq, List.append_assoc]
    calc 1 ≤ countSub (entryLit key newv) (entryLit key newv ++ content.drop ee) :=
          one_le_countSub_self _ _
      _ ≤ _ := countSub_le_append _ _ _

/-- C6 amended claim at a concrete input: a `_bimg_version` region holding
`"1.0.0": "41"` has exactly that span rewritten to `"1.0.0": "42"`. -/
theorem c6_replacement_amended_witness :
    update_conanfile_region
        (strL "def _bimg_version(self):return\x7b\"1.0.0\": \"41\"\x7d")
        (strL "_bimg_version") (strL "1.0.0") (strL "42") true
      = (strL "def _bimg_version(self):return\x7b\"1.0.0\": \"41\"\x7d").take 31
          ++ entryLit (strL "1.0.0") (strL "42")
          ++ (strL "def _bimg_version(self):return\x7b\"1.0.0\": \"41\"\x7d").drop 44
    ∧ 1 ≤ countSub (entryLit (strL "1.0.0") (strL "41"))
        (strL "def _bimg_version(self):return\x7b\"1.0.0\": \"41\"\x7d")
    ∧ 1 ≤ countSub (entryLit (strL "1.0.0") (strL "42"))
        (update_conanfile_region
          (strL "def _bimg_version(self):return\x7b\"1.0.0\": \"41\"\x7d")
          (strL "_bimg_version") (strL "1.0.0") (strL "42") true) :=
  c6_replacement_amended
    (strL "def _bimg_version(self):return\x7b\"1.0.0\": \"41\"\x7d")
    (strL "_bimg_version") (strL "1.0.0") (strL "41") (strL "42") true
    0 31 31 44 (by decide) (by decide) (by decide) (by decide)

end BgfxUpdater
